import Mathlib

/-!
Verification of the max segment tree implemented in `segment_tree.py`.

The Python classes `TreeNode` and `SegmentTree` are shallowly embedded:
mutation is modelled by returning the new tree, a Python attribute error
(calling a method on a `None` child or indexing a list out of range) is
modelled by `Option`/`Except` failure, and the unbounded recursion of
`SegmentTree.build_tree` is modelled with an explicit fuel parameter.
Python's floor division `//` is `Int.fdiv`, its list indexing (including
negative indices) is `pyGet`.
-/

namespace SegTree

/-- Python list indexing `l[i]`: a nonnegative index reads from the front,
a negative index `i` reads `l[len(l)+i]`, anything else is an `IndexError`
(`none`). -/
def pyGet {α : Type} (l : List α) (i : Int) : Option α :=
  if 0 ≤ i then l.get? i.toNat
  else if 0 ≤ i + l.length then l.get? (i + l.length).toNat
  else none

/-- The `TreeNode` class of `segment_tree.py`.  Fields follow the Python
attributes `start`, `end` (renamed `endIdx`, `end` is a Lean keyword),
`label`, `value`, `is_selected`, `branch`, `left`, `right`.  The attribute
`inorder_pos` is only created by the first `inorder` call, hence an
`Option Nat` that starts out `none`. -/
inductive TreeNode : Type where
  | mk (start : Int) (endIdx : Int) (label : String) (value : Int)
       (is_selected : Bool) (branch : Bool)
       (left : Option TreeNode) (right : Option TreeNode)
       (inorderPos : Option Nat) : TreeNode

/-- Accessor for the `value` attribute. -/
def TreeNode.value : TreeNode → Int
  | .mk _ _ _ v _ _ _ _ _ => v

/-- Accessor for the `start` attribute. -/
def TreeNode.start : TreeNode → Int
  | .mk s _ _ _ _ _ _ _ _ => s

/-- Accessor for the `end` attribute. -/
def TreeNode.endIdx : TreeNode → Int
  | .mk _ e _ _ _ _ _ _ _ => e

/-- Accessor for the `label` attribute. -/
def TreeNode.label : TreeNode → String
  | .mk _ _ lab _ _ _ _ _ _ => lab

/-- Accessor for the `branch` attribute. -/
def TreeNode.branch : TreeNode → Bool
  | .mk _ _ _ _ _ br _ _ _ => br

/-- Accessor for the `left` attribute (`None` becomes `none`). -/
def TreeNode.left : TreeNode → Option TreeNode
  | .mk _ _ _ _ _ _ l _ _ => l

/-- Accessor for the `right` attribute. -/
def TreeNode.right : TreeNode → Option TreeNode
  | .mk _ _ _ _ _ _ _ r _ => r

/-- `TreeNode.update` from `segment_tree.py`.  A leaf (`start == end`)
overwrites its `value` with no index check; an internal node recurses into
`left` when `idx <= mid` (`mid = (start+end)//2`) and into `right`
otherwise, then recomputes `value` by the comparison
`left.value > right.value`.  Dereferencing an absent child is a Python
`AttributeError`, modelled as `none`. -/
def TreeNode.update : TreeNode → Int → Int → Option TreeNode
  | .mk s e lab _ sel br l r pos, idx, value =>
    if s = e then some (.mk s e lab value sel br l r pos)
    else
      let mid := Int.fdiv (s + e) 2
      if idx ≤ mid then
        match l with
        | none => none
        | some lc =>
          match lc.update idx value with
          | none => none
          | some lc2 =>
            match r with
            | none => none
            | some rc =>
              some (.mk s e lab (if lc2.value > rc.value then lc2.value else rc.value)
                sel br (some lc2) (some rc) pos)
      else
        match r with
        | none => none
        | some rc =>
          match rc.update idx value with
          | none => none
          | some rc2 =>
            match l with
            | none => none
            | some lc =>
              some (.mk s e lab (if lc.value > rc2.value then lc.value else rc2.value)
                sel br (some lc) (some rc2) pos)

/-- `TreeNode.query` from `segment_tree.py`: exact range match returns
`value`; otherwise the query is routed entirely left when `end <= mid`,
entirely right when `start > mid`, and split at `mid` otherwise, combining
with `max`.  Dereferencing an absent child is modelled as `none`. -/
def TreeNode.query : TreeNode → Int → Int → Option Int
  | .mk s e _ v _ _ l r _, qs, qe =>
    if s = qs ∧ e = qe then some v
    else
      let mid := Int.fdiv (s + e) 2
      if qe ≤ mid then
        match l with | none => none | some lc => lc.query qs qe
      else if qs > mid then
        match r with | none => none | some rc => rc.query qs qe
      else
        match l with
        | none => none
        | some lc =>
          match lc.query qs mid with
          | none => none
          | some lv =>
            match r with
            | none => none
            | some rc =>
              match rc.query (mid + 1) qe with
              | none => none
              | some rv => some (max lv rv)

/-- `TreeNode.inorder` from `segment_tree.py`.  The Python method threads a
one-element list `num` as a mutable counter and appends labels to
`key_list`; here both are threaded explicitly and the tree with the
freshly assigned `inorder_pos` attributes is returned alongside the final
counter and key list. -/
def TreeNode.inorder : TreeNode → Nat → List String → TreeNode × Nat × List String
  | .mk s e lab v sel br l r _, num, keys =>
    let stepL : Option TreeNode × Nat × List String :=
      match l with
      | none => (none, num, keys)
      | some lc =>
        let rl := lc.inorder num keys
        (some rl.1, rl.2.1, rl.2.2)
    let pos := stepL.2.1
    let keys2 := stepL.2.2 ++ [lab]
    let num2 := pos + 1
    let stepR : Option TreeNode × Nat × List String :=
      match r with
      | none => (none, num2, keys2)
      | some rc =>
        let rr := rc.inorder num2 keys2
        (some rr.1, rr.2.1, rr.2.2)
    (.mk s e lab v sel br stepL.1 stepR.1 (some pos), stepR.2.1, stepR.2.2)

/-- Error outcomes of `build_tree` in the fuel model: `fuelOut` stands for
recursion that exceeds the fuel bound (in Python, recursion that never
terminates or overflows the stack), `indexErr` for a Python `IndexError`
on `values[start]` or `labels[start]`. -/
inductive BuildErr : Type where
  | fuelOut : BuildErr
  | indexErr : BuildErr

/-- `SegmentTree.build_tree` from `segment_tree.py`.  The Python method
reads `self.values`, `self.labels`, `self.selected_idx`, `self.branch_idx`,
passed here as parameters.  A leaf takes `labels[start]` and
`values[start]` and compares `selected_idx`/`branch_idx` with `start`; an
internal node builds `[start, mid]` and `[mid+1, end]` and aggregates with
the comparison `left.value > right.value`; `branch` is
`right.branch or left.branch`.  `fuel` bounds the recursion depth. -/
def buildTree (values : List Int) (labels : List String)
    (selectedIdx branchIdx : Int) : Nat → Int → Int → Except BuildErr TreeNode
  | 0, _, _ => .error .fuelOut
  | fuel + 1, start, stop =>
    if start = stop then
      match pyGet labels start, pyGet values start with
      | some lab, some v =>
        .ok (.mk start stop lab v (decide (selectedIdx = start))
          (decide (branchIdx = start)) none none none)
      | _, _ => .error .indexErr
    else
      let mid := Int.fdiv (start + stop) 2
      match buildTree values labels selectedIdx branchIdx fuel start mid with
      | .error err => .error err
      | .ok lc =>
        match buildTree values labels selectedIdx branchIdx fuel (mid + 1) stop with
        | .error err => .error err
        | .ok rc =>
          .ok (.mk start stop ""
            (if lc.value > rc.value then lc.value else rc.value)
            false (rc.branch || lc.branch) (some lc) (some rc) none)

/-- The `SegmentTree` class: its attributes `values`, `labels`,
`selected_idx`, `branch_idx` and `root`. -/
structure SegmentTree : Type where
  values : List Int
  labels : List String
  selected_idx : Int
  branch_idx : Int
  root : TreeNode

/-- `SegmentTree.__init__`: stores the arguments and builds the root over
`[0, len(values) - 1]`.  The fuel `values.length` is enough for any
terminating run (proved below); on input the Python code cannot finish
(empty `values`) or that indexes out of range, the result is an error. -/
def SegmentTree.init (values : List Int) (labels : List String)
    (selectedIdx branchIdx : Int) : Except BuildErr SegmentTree :=
  match buildTree values labels selectedIdx branchIdx values.length
      0 ((values.length : Int) - 1) with
  | .ok r => .ok ⟨values, labels, selectedIdx, branchIdx, r⟩
  | .error err => .error err

/-- `SegmentTree.update`: delegates to `root.update` with no bounds check;
the mutated tree is returned. -/
def SegmentTree.update (st : SegmentTree) (idx v : Int) : Option SegmentTree :=
  match st.root.update idx v with
  | none => none
  | some r => some ⟨st.values, st.labels, st.selected_idx, st.branch_idx, r⟩

/-- `SegmentTree.query`: delegates to `root.query` with no bounds check. -/
def SegmentTree.query (st : SegmentTree) (s e : Int) : Option Int :=
  st.root.query s e

/-- `SegmentTree.inorder`: starts the counter at `0` with an empty
`key_list`, traverses the root, and returns the key list (the tree with
its new `inorder_pos` annotations is returned as well, standing for the
mutation of the node objects). -/
def SegmentTree.inorder (st : SegmentTree) : SegmentTree × List String :=
  let r := st.root.inorder 0 []
  (⟨st.values, st.labels, st.selected_idx, st.branch_idx, r.1⟩, r.2.2)

/-- A sequence of `update` calls, performed left to right. -/
def applyUpdates : TreeNode → List (Int × Int) → Option TreeNode
  | t, [] => some t
  | t, (idx, v) :: rest =>
    match t.update idx v with
    | none => none
    | some t2 => applyUpdates t2 rest

/-- Element of a list at an `Int` index with default `0` (used to state
range maxima). -/
def getDD (A : List Int) (i : Int) : Int := (pyGet A i).getD 0

/-- The maximum of `A[s..e]` (inclusive), the quantity the specification
calls `max(A[s..e])`. -/
def rangeMax (A : List Int) (s e : Int) : Int :=
  if e ≤ s then getDD A s
  else max (rangeMax A s (e - 1)) (getDD A e)
termination_by (e - s).toNat
decreasing_by omega

/-- The maximum of a whole list, the quantity the specification calls
`max(A)`; `0` for an empty list. -/
def listMax : List Int → Int
  | [] => 0
  | x :: xs => xs.foldl max x

/-- The list `A` with `A[idx]` replaced by `v` (for a valid index
`0 ≤ idx < A.length`), as in the update-correctness property. -/
def updList (A : List Int) (idx : Int) (v : Int) : List Int :=
  A.set idx.toNat v

/-- Element of a string list at an `Int` index with default `""`. -/
def getDS (L : List String) (i : Int) : String := (pyGet L i).getD ""

/-- The sublist `L[s..e]` (inclusive) as a list. -/
def sliceL (L : List String) (s e : Int) : List String :=
  if e < s then []
  else getDS L s :: sliceL L (s + 1) e
termination_by (e - s + 1).toNat
decreasing_by omega

/-- Interleaves a list of labels with `""` separators: the in-order label
sequence of a segment tree whose leaves carry these labels. -/
def interleave : List String → List String
  | [] => []
  | [a] => [a]
  | a :: b :: rest => a :: "" :: interleave (b :: rest)

/-- Decidable check of the structural invariant claimed for every node:
a childless node is a leaf with `start = end`; a node with two children
has `value = max(left.value, right.value)`, a left child covering
`[start, mid]` and a right child covering `[mid+1, end]` with
`mid = (start+end)//2`; a node with exactly one child never occurs. -/
def invariantB : TreeNode → Bool
  | .mk s e _ _ _ _ none none _ => decide (s = e)
  | .mk s e _ v _ _ (some l) (some r) _ =>
    decide (v = max l.value r.value) &&
    decide (l.start = s) && decide (l.endIdx = Int.fdiv (s + e) 2) &&
    decide (r.start = Int.fdiv (s + e) 2 + 1) && decide (r.endIdx = e) &&
    invariantB l && invariantB r
  | _ => false

/-- The root-to-leaf path that `update idx` descends, as a list of
directions (`false` = left, `true` = right). -/
def pathTo : TreeNode → Int → List Bool
  | .mk s e _ _ _ _ l r _, idx =>
    if s = e then []
    else
      let mid := Int.fdiv (s + e) 2
      if idx ≤ mid then
        match l with
        | none => []
        | some lc => false :: pathTo lc idx
      else
        match r with
        | none => []
        | some rc => true :: pathTo rc idx

/-- The subtree reached by following a list of directions from a node
(`false` = left, `true` = right); `none` when the path walks off the
tree. -/
def subtreeAt : TreeNode → List Bool → Option TreeNode
  | t, [] => some t
  | t, b :: p =>
    match (if b then t.right else t.left) with
    | none => none
    | some c => subtreeAt c p

/-- `leads p q` holds when `p` is an initial segment of `q`: the node at
position `p` lies on the path `q` exactly when `leads p q`. -/
def leads : List Bool → List Bool → Bool
  | [], _ => true
  | _ :: _, [] => false
  | a :: as, b :: bs => (a == b) && leads as bs

/-- Erases every `inorder_pos` annotation, leaving all other fields (in
particular every `value`) untouched. -/
def erasePos : TreeNode → TreeNode
  | .mk s e lab v sel br none none _ => .mk s e lab v sel br none none none
  | .mk s e lab v sel br none (some rc) _ =>
    .mk s e lab v sel br none (some (erasePos rc)) none
  | .mk s e lab v sel br (some lc) none _ =>
    .mk s e lab v sel br (some (erasePos lc)) none none
  | .mk s e lab v sel br (some lc) (some rc) _ =>
    .mk s e lab v sel br (some (erasePos lc)) (some (erasePos rc)) none

/-- `Models A L s e t` states that `t` is exactly the tree that
`build_tree` produces over the range `[s, e]` of value list `A` and label
list `L`, up to the presentation fields `is_selected`, `branch` and
`inorder_pos`: a leaf holds `A[i]` and `L[i]`, an internal node splits at
`mid = (start+end)//2` and aggregates the children's values with `max`,
and internal labels are `""`. -/
inductive Models (A : List Int) (L : List String) :
    Int → Int → TreeNode → Prop where
  | leaf (i : Int) (v : Int) (lab : String) (sel br : Bool)
      (pos : Option Nat)
      (hv : pyGet A i = some v) (hlab : pyGet L i = some lab) :
      Models A L i i (.mk i i lab v sel br none none pos)
  | node (s e : Int) (l r : TreeNode) (v : Int) (sel br : Bool)
      (pos : Option Nat)
      (hse : s < e)
      (hl : Models A L s (Int.fdiv (s + e) 2) l)
      (hr : Models A L (Int.fdiv (s + e) 2 + 1) e r)
      (hv : v = max l.value r.value) :
      Models A L s e (.mk s e "" v sel br (some l) (some r) pos)

/-! ### Arithmetic and list helper lemmas -/

theorem fdiv_two (a : Int) : Int.fdiv a 2 = a / 2 :=
  Int.fdiv_eq_ediv a (by norm_num)

theorem fdiv_two_bounds (a : Int) :
    2 * Int.fdiv a 2 ≤ a ∧ a ≤ 2 * Int.fdiv a 2 + 1 := by
  rw [fdiv_two]; omega

theorem mid_bounds {s e : Int} (h : s < e) :
    s ≤ Int.fdiv (s + e) 2 ∧ Int.fdiv (s + e) 2 < e := by
  have hb := fdiv_two_bounds (s + e)
  omega

theorem pyGet_nonneg {α : Type} (l : List α) {i : Int} (h : 0 ≤ i) :
    pyGet l i = l.get? i.toNat := by
  simp [pyGet, h]

theorem pyGet_isSome {α : Type} (l : List α) {i : Int}
    (h0 : 0 ≤ i) (hlt : i < l.length) : ∃ x, pyGet l i = some x := by
  rw [pyGet_nonneg l h0]
  have : i.toNat < l.length := by omega
  rcases List.get?_eq_get this with h
  exact ⟨_, h⟩

theorem pyGet_updList_ne {A : List Int} {idx j : Int} (v : Int)
    (h0 : 0 ≤ j) (hidx : 0 ≤ idx) (hne : j ≠ idx) :
    pyGet (updList A idx v) j = pyGet A j := by
  rw [updList, pyGet_nonneg _ h0, pyGet_nonneg _ h0]
  exact List.get?_set_ne v A (by omega)

theorem pyGet_updList_eq {A : List Int} {idx : Int} (v : Int)
    (h0 : 0 ≤ idx) (hlt : idx < A.length) :
    pyGet (updList A idx v) idx = some v := by
  rw [updList, pyGet_nonneg _ h0]
  exact List.get?_set_eq_of_lt v (by omega)

theorem updList_length (A : List Int) (idx v : Int) :
    (updList A idx v).length = A.length := by
  simp [updList]

/-! ### Lemmas about `rangeMax` -/

theorem rangeMax_base (A : List Int) {s e : Int} (h : e ≤ s) :
    rangeMax A s e = getDD A s := by
  rw [rangeMax, if_pos h]

theorem rangeMax_step (A : List Int) {s e : Int} (h : s < e) :
    rangeMax A s e = max (rangeMax A s (e - 1)) (getDD A e) := by
  rw [rangeMax, if_neg (by omega)]

theorem rangeMax_split (A : List Int) {s m e : Int}
    (h1 : s ≤ m) (h2 : m < e) :
    rangeMax A s e = max (rangeMax A s m) (rangeMax A (m + 1) e) := by
  have key : ∀ k : Nat, ∀ e2 : Int, e2 = m + 1 + k →
      rangeMax A s e2 = max (rangeMax A s m) (rangeMax A (m + 1) e2) := by
    intro k
    induction k with
    | zero =>
      intro e2 he2
      have he2 : e2 = m + 1 := by omega
      subst he2
      rw [rangeMax_step A (show s < m + 1 by omega)]
      rw [rangeMax_base A (show m + 1 ≤ m + 1 by omega)]
      simp
    | succ k ih =>
      intro e2 he2
      rw [rangeMax_step A (show s < e2 by omega),
        rangeMax_step A (show m + 1 < e2 by omega),
        ih (e2 - 1) (by omega), max_assoc]
  exact key (e - m - 1).toNat e (by omega)

theorem rangeMax_ext {A B : List Int} {s e : Int} (hse : s ≤ e)
    (h : ∀ j, s ≤ j → j ≤ e → getDD A j = getDD B j) :
    rangeMax A s e = rangeMax B s e := by
  have key : ∀ k : Nat, ∀ e2 : Int, e2 = s + k → e2 ≤ e →
      rangeMax A s e2 = rangeMax B s e2 := by
    intro k
    induction k with
    | zero =>
      intro e2 he2 hle
      have he3 : e2 = s := by omega
      rw [he3, rangeMax_base A le_rfl, rangeMax_base B le_rfl]
      exact h s le_rfl hse
    | succ k ih =>
      intro e2 he2 hle
      rw [rangeMax_step A (show s < e2 by omega),
        rangeMax_step B (show s < e2 by omega),
        ih (e2 - 1) (by omega) (by omega),
        h e2 (by omega) hle]
  exact key (e - s).toNat e (by omega) le_rfl

theorem gt_ite_max (a b : Int) : (if a > b then a else b) = max a b := by
  by_cases h : a > b
  · rw [if_pos h, max_eq_left (by omega : b ≤ a)]
  · rw [if_neg h, max_eq_right (by omega : a ≤ b)]

theorem getDD_append_left {ys zs : List Int} {j : Int}
    (h0 : 0 ≤ j) (h : j < ys.length) : getDD (ys ++ zs) j = getDD ys j := by
  rw [getDD, getDD, pyGet_nonneg _ h0, pyGet_nonneg _ h0,
    List.get?_append (by omega)]

theorem getDD_append_last (ys : List Int) (a : Int) :
    getDD (ys ++ [a]) ys.length = a := by
  rw [getDD, pyGet_nonneg _ (by positivity),
    List.get?_append_right (by simp)]
  simp

theorem listMax_append_last {ys : List Int} (a : Int) (h : ys ≠ []) :
    listMax (ys ++ [a]) = max (listMax ys) a := by
  rcases ys with _ | ⟨y, t⟩
  · exact absurd rfl h
  · simp [listMax, List.foldl_append]

theorem rangeMax_eq_listMax {A : List Int} (h : A ≠ []) :
    rangeMax A 0 ((A.length : Int) - 1) = listMax A := by
  induction A using List.reverseRecOn with
  | nil => exact absurd rfl h
  | append_singleton ys a ih =>
    rcases ys with _ | ⟨y, t⟩
    · simp only [List.nil_append]
      rw [show ((([a] : List Int).length : Int) - 1) = 0 by simp,
        rangeMax_base _ le_rfl]
      rfl
    · have hy : (y :: t) ≠ [] := by simp
      have hlen : 0 < (y :: t).length := by simp
      have hL : (((y :: t) ++ [a]).length : Int) - 1 = ((y :: t).length : Int) := by
        simp
      rw [hL, rangeMax_step _ (by omega), listMax_append_last a hy, ← ih hy]
      have he : getDD ((y :: t) ++ [a]) ((y :: t).length : Int) = a := by
        have := getDD_append_last (y :: t) a
        simpa using this
      rw [he]
      have hext : rangeMax ((y :: t) ++ [a]) 0 (((y :: t).length : Int) - 1)
          = rangeMax (y :: t) 0 (((y :: t).length : Int) - 1) := by
        apply rangeMax_ext (by omega)
        intro j h1 h2
        exact getDD_append_left h1 (by omega)
      rw [hext]

/-! ### Basic facts about `Models` -/

theorem Models.le {A : List Int} {L : List String} {s e : Int} {t : TreeNode}
    (h : Models A L s e t) : s ≤ e := by
  cases h with
  | leaf => exact le_rfl
  | node _ _ _ _ _ _ _ _ hse => omega

theorem Models.start_eq {A : List Int} {L : List String} {s e : Int}
    {t : TreeNode} (h : Models A L s e t) : t.start = s := by
  cases h <;> rfl

theorem Models.endIdx_eq {A : List Int} {L : List String} {s e : Int}
    {t : TreeNode} (h : Models A L s e t) : t.endIdx = e := by
  cases h <;> rfl

theorem Models.value_eq {A : List Int} {L : List String} {s e : Int}
    {t : TreeNode} (h : Models A L s e t) : t.value = rangeMax A s e := by
  induction h with
  | leaf i v lab sel br pos hv hlab =>
    show v = rangeMax A i i
    rw [rangeMax_base A le_rfl, getDD, hv]
    rfl
  | node s e l r v sel br pos hse hl hr hv ihl ihr =>
    show v = rangeMax A s e
    obtain ⟨hm1, hm2⟩ := mid_bounds hse
    rw [rangeMax_split A hm1 hm2, hv, ihl, ihr]

theorem Models.ext {A B : List Int} {L : List String} {s e : Int}
    {t : TreeNode} (h : Models A L s e t)
    (hAB : ∀ j, s ≤ j → j ≤ e → pyGet A j = pyGet B j) :
    Models B L s e t := by
  induction h with
  | leaf i v lab sel br pos hv hlab =>
    exact .leaf i v lab sel br pos (by rw [← hAB i le_rfl le_rfl]; exact hv) hlab
  | node s e l r v sel br pos hse hl hr hv ihl ihr =>
    obtain ⟨hm1, hm2⟩ := mid_bounds hse
    exact .node s e l r v sel br pos hse
      (ihl fun j h1 h2 => hAB j h1 (by omega))
      (ihr fun j h1 h2 => hAB j (by omega) h2) hv

/-! ### Build correctness -/

theorem build_models {A : List Int} {L : List String} (si bi : Int) :
    ∀ (fuel : Nat) (s e : Int), 0 ≤ s → s ≤ e → e < (A.length : Int) →
    e < (L.length : Int) → (e - s).toNat < fuel →
    ∃ t, buildTree A L si bi fuel s e = .ok t ∧ Models A L s e t := by
  intro fuel
  induction fuel with
  | zero => intro s e _ _ _ _ hf; omega
  | succ fuel ih =>
    intro s e h0 hse hA hL hf
    by_cases heq : s = e
    · obtain ⟨v, hv⟩ := pyGet_isSome A h0 (by omega)
      obtain ⟨lab, hlab⟩ := pyGet_isSome L h0 (by omega)
      refine ⟨.mk s e lab v (decide (si = s)) (decide (bi = s)) none none none,
        ?_, ?_⟩
      · simp only [buildTree, if_pos heq, hv, hlab]
      · rw [← heq]
        exact Models.leaf s v lab _ _ none hv hlab
    · have hse2 : s < e := lt_of_le_of_ne hse heq
      obtain ⟨hm1, hm2⟩ := mid_bounds hse2
      obtain ⟨lc, hlc, hlcM⟩ :=
        ih s (Int.fdiv (s + e) 2) h0 hm1 (by omega) (by omega) (by omega)
      obtain ⟨rc, hrc, hrcM⟩ :=
        ih (Int.fdiv (s + e) 2 + 1) e (by omega) (by omega) hA hL (by omega)
      refine ⟨.mk s e "" (if lc.value > rc.value then lc.value else rc.value)
        false (rc.branch || lc.branch) (some lc) (some rc) none, ?_, ?_⟩
      · simp only [buildTree, if_neg heq, hlc, hrc]
      · exact Models.node s e lc rc _ false (rc.branch || lc.branch) none
          hse2 hlcM hrcM (gt_ite_max lc.value rc.value)

theorem init_models {A : List Int} {L : List String} {si bi : Int}
    {st : SegmentTree} (hA : A ≠ [])
    (hL : (A.length : Int) - 1 < (L.length : Int))
    (h : SegmentTree.init A L si bi = .ok st) :
    Models A L 0 ((A.length : Int) - 1) st.root := by
  have hlen : 0 < A.length := List.length_pos.mpr hA
  obtain ⟨t, ht, htM⟩ := @build_models A L si bi A.length 0 ((A.length : Int) - 1)
    (by omega) (by omega) (by omega) hL (by omega)
  rw [SegmentTree.init, ht] at h
  cases h
  exact htM

theorem pyGet_some_lt {α : Type} {l : List α} {i : Int} {x : α}
    (h0 : 0 ≤ i) (h : pyGet l i = some x) : i < (l.length : Int) := by
  rw [pyGet_nonneg _ h0] at h
  by_contra hc
  rw [List.get?_eq_none.mpr (by omega)] at h
  cases h

/-! ### Query correctness -/

theorem query_models {A : List Int} {L : List String} {s e : Int}
    {t : TreeNode} (h : Models A L s e t) :
    ∀ qs qe, s ≤ qs → qs ≤ qe → qe ≤ e →
    t.query qs qe = some (rangeMax A qs qe) := by
  induction h with
  | leaf i v lab sel br pos hv hlab =>
    intro qs qe h1 h2 h3
    have hqs : qs = i := by omega
    have hqe : qe = i := by omega
    simp only [TreeNode.query]
    rw [if_pos (show i = qs ∧ i = qe from ⟨hqs.symm, hqe.symm⟩)]
    rw [hqs, hqe, rangeMax_base A le_rfl, getDD, hv]
    rfl
  | node s e l r v sel br pos hse hl hr hv ihl ihr =>
    intro qs qe h1 h2 h3
    obtain ⟨hm1, hm2⟩ := mid_bounds hse
    simp only [TreeNode.query]
    by_cases hex : s = qs ∧ e = qe
    · rw [if_pos hex]
      obtain ⟨hexs, hexe⟩ := hex
      rw [hv, hl.value_eq, hr.value_eq, ← hexs, ← hexe,
        ← rangeMax_split A hm1 hm2]
    · rw [if_neg hex]
      by_cases hql : qe ≤ Int.fdiv (s + e) 2
      · rw [if_pos hql]
        exact ihl qs qe h1 h2 hql
      · rw [if_neg hql]
        by_cases hqr : qs > Int.fdiv (s + e) 2
        · rw [if_pos hqr]
          exact ihr qs qe (by omega) h2 h3
        · rw [if_neg hqr]
          rw [ihl qs (Int.fdiv (s + e) 2) h1 (by omega) le_rfl,
            ihr (Int.fdiv (s + e) 2 + 1) qe (by omega) (by omega) h3]
          rw [rangeMax_split A (show qs ≤ Int.fdiv (s + e) 2 by omega)
            (show Int.fdiv (s + e) 2 < qe by omega)]

/-! ### Update correctness -/

theorem update_models {A : List Int} {L : List String} {s e : Int}
    {t : TreeNode} (h : Models A L s e t) :
    ∀ idx v, 0 ≤ s → s ≤ idx → idx ≤ e →
    ∃ t2, t.update idx v = some t2 ∧ Models (updList A idx v) L s e t2 := by
  induction h with
  | leaf i v0 lab sel br pos hv hlab =>
    intro idx v h0 h1 h2
    have hii : idx = i := le_antisymm h2 h1
    subst hii
    refine ⟨.mk idx idx lab v sel br none none pos, ?_, ?_⟩
    · simp [TreeNode.update]
    · exact Models.leaf idx v lab sel br pos
        (pyGet_updList_eq v h0 (pyGet_some_lt h0 hv)) hlab
  | node s e l r v0 sel br pos hse hl hr hv0 ihl ihr =>
    intro idx v h0 h1 h2
    obtain ⟨hm1, hm2⟩ := mid_bounds hse
    by_cases hil : idx ≤ Int.fdiv (s + e) 2
    · obtain ⟨l2, hl2, hl2M⟩ := ihl idx v h0 h1 hil
      refine ⟨.mk s e "" (if l2.value > r.value then l2.value else r.value)
        sel br (some l2) (some r) pos, ?_, ?_⟩
      · simp only [TreeNode.update, if_neg (show ¬ s = e by omega),
          if_pos hil, hl2]
      · have hrM : Models (updList A idx v) L (Int.fdiv (s + e) 2 + 1) e r :=
          hr.ext fun j hj1 hj2 =>
            (pyGet_updList_ne v (by omega) (by omega) (by omega)).symm
        exact Models.node s e l2 r _ sel br pos hse hl2M hrM
          (gt_ite_max _ _)
    · obtain ⟨r2, hr2, hr2M⟩ := ihr idx v (by omega) (by omega) h2
      refine ⟨.mk s e "" (if l.value > r2.value then l.value else r2.value)
        sel br (some l) (some r2) pos, ?_, ?_⟩
      · simp only [TreeNode.update, if_neg (show ¬ s = e by omega),
          if_neg hil, hr2]
      · have hlM : Models (updList A idx v) L s (Int.fdiv (s + e) 2) l :=
          hl.ext fun j hj1 hj2 =>
            (pyGet_updList_ne v (by omega) (by omega) (by omega)).symm
        exact Models.node s e l r2 _ sel br pos hse hlM hr2M
          (gt_ite_max _ _)

/-! ### Sequences of updates and the structural invariant -/

theorem applyUpdates_models {L : List String} {s e : Int} (h0 : 0 ≤ s) :
    ∀ (us : List (Int × Int)) (A : List Int) (t : TreeNode),
    Models A L s e t → (∀ p ∈ us, s ≤ p.1 ∧ p.1 ≤ e) →
    ∃ A2 t2, applyUpdates t us = some t2 ∧ Models A2 L s e t2 := by
  intro us
  induction us with
  | nil =>
    intro A t h _
    exact ⟨A, t, rfl, h⟩
  | cons p rest ih =>
    obtain ⟨idx, v⟩ := p
    intro A t h hvalid
    obtain ⟨hp1, hp2⟩ := hvalid (idx, v) (List.mem_cons_self _ _)
    obtain ⟨t2, ht2, ht2M⟩ := update_models h idx v h0 hp1 hp2
    obtain ⟨A2, t3, ht3, ht3M⟩ := ih (updList A idx v) t2 ht2M
      (fun q hq => hvalid q (List.mem_cons_of_mem _ hq))
    refine ⟨A2, t3, ?_, ht3M⟩
    simp only [applyUpdates, ht2]
    exact ht3

theorem invariantB_of_models {A : List Int} {L : List String} {s e : Int}
    {t : TreeNode} (h : Models A L s e t) : invariantB t = true := by
  induction h with
  | leaf i v lab sel br pos hv hlab => simp [invariantB]
  | node s e l r v sel br pos hse hl hr hv ihl ihr =>
    simp [invariantB, hv, hl.start_eq, hl.endIdx_eq, hr.start_eq,
      hr.endIdx_eq, ihl, ihr]

/-! ### The frame property of `update` -/

theorem update_offPath {A : List Int} {L : List String} {s e : Int}
    {t : TreeNode} (h : Models A L s e t) :
    ∀ idx v t2, t.update idx v = some t2 →
    ∀ p : List Bool, leads p (pathTo t idx) = false →
    subtreeAt t2 p = subtreeAt t p := by
  induction h with
  | leaf i v0 lab sel br pos hv hlab =>
    intro idx v t2 hupd p hp
    simp only [TreeNode.update, if_pos rfl, if_true, Option.some.injEq] at hupd
    rcases p with _ | ⟨b, p⟩
    · simp [leads] at hp
    · rw [← hupd]
      rcases b <;> rfl
  | node s e l r v0 sel br pos hse hl hr hv0 ihl ihr =>
    intro idx v t2 hupd p hp
    have hne : ¬ s = e := by omega
    simp only [TreeNode.update, if_neg hne] at hupd
    simp only [pathTo, if_neg hne] at hp
    by_cases hil : idx ≤ Int.fdiv (s + e) 2
    · rw [if_pos hil] at hupd hp
      cases hlu : l.update idx v with
      | none => rw [hlu] at hupd; cases hupd
      | some l2 =>
        rw [hlu] at hupd
        simp only [Option.some.injEq] at hupd
        rw [← hupd]
        rcases p with _ | ⟨b, p⟩
        · simp [leads] at hp
        · rcases b
          · simp only [leads, Bool.and_eq_false_iff] at hp
            have hp2 : leads p (pathTo l idx) = false := by
              rcases hp with hp | hp
              · cases hp
              · exact hp
            simp only [subtreeAt]
            exact ihl idx v l2 hlu p hp2
          · rfl
    · rw [if_neg hil] at hupd hp
      cases hru : r.update idx v with
      | none => rw [hru] at hupd; cases hupd
      | some r2 =>
        rw [hru] at hupd
        simp only [Option.some.injEq] at hupd
        rw [← hupd]
        rcases p with _ | ⟨b, p⟩
        · simp [leads] at hp
        · rcases b
          · rfl
          · simp only [leads, Bool.and_eq_false_iff] at hp
            have hp2 : leads p (pathTo r idx) = false := by
              rcases hp with hp | hp
              · cases hp
              · exact hp
            simp only [subtreeAt]
            exact ihr idx v r2 hru p hp2

/-! ### Behavior on out-of-range arguments (no validation in the code) -/

theorem update_low {A : List Int} {L : List String} {s e : Int}
    {t : TreeNode} (h : Models A L s e t) :
    ∀ idx v, idx < s → t.update idx v = t.update s v := by
  induction h with
  | leaf i v0 lab sel br pos hv hlab =>
    intro idx v hlt
    simp only [TreeNode.update, if_pos rfl, if_true]
  | node s e l r v0 sel br pos hse hl hr hv0 ihl ihr =>
    intro idx v hlt
    obtain ⟨hm1, hm2⟩ := mid_bounds hse
    simp only [TreeNode.update, if_neg (show ¬ s = e by omega)]
    rw [if_pos (show idx ≤ Int.fdiv (s + e) 2 by omega),
      if_pos (show s ≤ Int.fdiv (s + e) 2 by omega),
      ihl idx v (by omega)]

theorem update_high {A : List Int} {L : List String} {s e : Int}
    {t : TreeNode} (h : Models A L s e t) :
    ∀ idx v, e < idx → t.update idx v = t.update e v := by
  induction h with
  | leaf i v0 lab sel br pos hv hlab =>
    intro idx v hlt
    simp only [TreeNode.update, if_pos rfl, if_true]
  | node s e l r v0 sel br pos hse hl hr hv0 ihl ihr =>
    intro idx v hlt
    obtain ⟨hm1, hm2⟩ := mid_bounds hse
    simp only [TreeNode.update, if_neg (show ¬ s = e by omega)]
    rw [if_neg (show ¬ idx ≤ Int.fdiv (s + e) 2 by omega),
      if_neg (show ¬ e ≤ Int.fdiv (s + e) 2 by omega),
      ihr idx v (by omega)]

theorem query_inverted {A : List Int} {L : List String} {s e : Int}
    {t : TreeNode} (h : Models A L s e t) :
    ∀ qs qe, qe < qs → t.query qs qe = none := by
  induction h with
  | leaf i v0 lab sel br pos hv hlab =>
    intro qs qe hlt
    have hmid : Int.fdiv (i + i) 2 = i := by rw [fdiv_two]; omega
    simp only [TreeNode.query]
    rw [if_neg (by rintro ⟨h1, h2⟩; omega)]
    by_cases h1 : qe ≤ Int.fdiv (i + i) 2
    · rw [if_pos h1]
    · rw [if_neg h1, if_pos (show qs > Int.fdiv (i + i) 2 by omega)]
  | node s e l r v0 sel br pos hse hl hr hv0 ihl ihr =>
    intro qs qe hlt
    obtain ⟨hm1, hm2⟩ := mid_bounds hse
    simp only [TreeNode.query]
    rw [if_neg (by rintro ⟨h1, h2⟩; omega)]
    by_cases h1 : qe ≤ Int.fdiv (s + e) 2
    · rw [if_pos h1]
      exact ihl qs qe hlt
    · rw [if_neg h1, if_pos (show qs > Int.fdiv (s + e) 2 by omega)]
      exact ihr qs qe hlt

theorem query_oob {A : List Int} {L : List String} {s e : Int}
    {t : TreeNode} (h : Models A L s e t) :
    ∀ qs qe, qs ≤ qe → (qs < s ∨ e < qe) → t.query qs qe = none := by
  induction h with
  | leaf i v0 lab sel br pos hv hlab =>
    intro qs qe hle hoob
    simp only [TreeNode.query]
    rw [if_neg (by rintro ⟨h1, h2⟩; omega)]
    by_cases h1 : qe ≤ Int.fdiv (i + i) 2
    · rw [if_pos h1]
    · rw [if_neg h1]
      by_cases h2 : qs > Int.fdiv (i + i) 2
      · rw [if_pos h2]
      · rw [if_neg h2]
  | node s e l r v0 sel br pos hse hl hr hv0 ihl ihr =>
    intro qs qe hle hoob
    obtain ⟨hm1, hm2⟩ := mid_bounds hse
    simp only [TreeNode.query]
    rw [if_neg (by rintro ⟨h1, h2⟩; omega)]
    by_cases h1 : qe ≤ Int.fdiv (s + e) 2
    · rw [if_pos h1]
      refine ihl qs qe hle (Or.inl ?_)
      rcases hoob with h3 | h3
      · omega
      · omega
    · rw [if_neg h1]
      by_cases h2 : qs > Int.fdiv (s + e) 2
      · rw [if_pos h2]
        refine ihr qs qe hle ?_
        rcases hoob with h3 | h3
        · exact absurd h3 (by omega)
        · exact Or.inr h3
      · rw [if_neg h2]
        by_cases hqs : qs < s
        · rw [ihl qs (Int.fdiv (s + e) 2) (by omega) (Or.inl hqs)]
        · have h3 : e < qe := by
            rcases hoob with h4 | h4
            · omega
            · exact h4
          rw [query_models hl qs (Int.fdiv (s + e) 2) (by omega) (by omega)
            le_rfl, ihr (Int.fdiv (s + e) 2 + 1) qe (by omega) (Or.inr h3)]

/-! ### Slices, interleavings, and the in-order traversal -/

theorem sliceL_nil (L : List String) {s e : Int} (h : e < s) :
    sliceL L s e = [] := by
  rw [sliceL, if_pos h]

theorem sliceL_cons (L : List String) {s e : Int} (h : s ≤ e) :
    sliceL L s e = getDS L s :: sliceL L (s + 1) e := by
  rw [sliceL, if_neg (by omega)]

theorem sliceL_single (L : List String) (i : Int) :
    sliceL L i i = [getDS L i] := by
  rw [sliceL_cons L le_rfl, sliceL_nil L (by omega)]

theorem sliceL_ne_nil (L : List String) {s e : Int} (h : s ≤ e) :
    sliceL L s e ≠ [] := by
  rw [sliceL_cons L h]
  exact List.cons_ne_nil _ _

theorem sliceL_length (L : List String) :
    ∀ (s e : Int), s ≤ e → (sliceL L s e).length = (e - s + 1).toNat := by
  have key : ∀ (k : Nat) (s e : Int), s ≤ e → e = s + k →
      (sliceL L s e).length = (e - s + 1).toNat := by
    intro k
    induction k with
    | zero =>
      intro s e h1 h2
      have he : e = s := by omega
      rw [he, sliceL_single]
      simp
    | succ k ih =>
      intro s e h1 h2
      rw [sliceL_cons L h1]
      simp only [List.length_cons, ih (s + 1) e (by omega) (by omega)]
      omega
  intro s e h
  exact key (e - s).toNat s e h (by omega)

theorem sliceL_split (L : List String) :
    ∀ (m s e : Int), s ≤ m → m < e →
    sliceL L s e = sliceL L s m ++ sliceL L (m + 1) e := by
  have key : ∀ (k : Nat) (s m e : Int), s ≤ m → m < e → m = s + k →
      sliceL L s e = sliceL L s m ++ sliceL L (m + 1) e := by
    intro k
    induction k with
    | zero =>
      intro s m e h1 h2 h3
      have hm : m = s := by omega
      rw [hm, sliceL_single, sliceL_cons L (by omega)]
      rfl
    | succ k ih =>
      intro s m e h1 h2 h3
      rw [sliceL_cons L (by omega : s ≤ e), sliceL_cons L (by omega : s ≤ m),
        ih (s + 1) m e (by omega) h2 (by omega)]
      rfl
  intro m s e h1 h2
  exact key (m - s).toNat s m e h1 h2 (by omega)

theorem interleave_append :
    ∀ (xs ys : List String), xs ≠ [] → ys ≠ [] →
    interleave (xs ++ ys) = interleave xs ++ [""] ++ interleave ys := by
  intro xs
  induction xs with
  | nil => intro ys h _; exact absurd rfl h
  | cons a xs ih =>
    intro ys _ hys
    rcases xs with _ | ⟨b, xs⟩
    · rcases ys with _ | ⟨y, t⟩
      · exact absurd rfl hys
      · rfl
    · have h3 : interleave (a :: ((b :: xs) ++ ys))
          = a :: "" :: interleave ((b :: xs) ++ ys) := rfl
      have h4 : interleave (a :: b :: xs) = a :: "" :: interleave (b :: xs) := rfl
      rw [List.cons_append, h3, h4, ih ys (List.cons_ne_nil _ _) hys]
      rfl

theorem interleave_length :
    ∀ (xs : List String), xs ≠ [] →
    (interleave xs).length = 2 * xs.length - 1 := by
  intro xs
  induction xs with
  | nil => intro h; exact absurd rfl h
  | cons a xs ih =>
    intro _
    rcases xs with _ | ⟨b, xs⟩
    · rfl
    · have h3 : interleave (a :: b :: xs) = a :: "" :: interleave (b :: xs) := rfl
      rw [h3]
      simp only [List.length_cons, ih (List.cons_ne_nil _ _)]
      omega

theorem erasePos_value (t : TreeNode) : (erasePos t).value = t.value := by
  rcases t with ⟨s, e, lab, v, sel, br, _ | lc, _ | rc, pos⟩ <;> rfl

theorem inorder_run {A : List Int} {L : List String} {s e : Int}
    {t : TreeNode} (h : Models A L s e t) :
    ∀ (num : Nat) (keys : List String),
    ∃ t2 cnt,
      t.inorder num keys = (t2, cnt, keys ++ interleave (sliceL L s e)) ∧
      Models A L s e t2 ∧
      erasePos t2 = erasePos t ∧
      t2.inorder num keys = (t2, cnt, keys ++ interleave (sliceL L s e)) := by
  induction h with
  | leaf i v lab sel br pos hv hlab =>
    intro num keys
    have hslice : sliceL L i i = [lab] := by
      rw [sliceL_single, getDS, hlab]
      rfl
    refine ⟨.mk i i lab v sel br none none (some num), num + 1, ?_, ?_, ?_, ?_⟩
    · rw [hslice]
      rfl
    · exact Models.leaf i v lab sel br (some num) hv hlab
    · rfl
    · rw [hslice]
      rfl
  | node s e l r v sel br pos hse hl hr hv ihl ihr =>
    intro num keys
    obtain ⟨hm1, hm2⟩ := mid_bounds hse
    obtain ⟨l2, c1, hlEq, hlM, hlE, hlI⟩ := ihl num keys
    obtain ⟨r2, c2, hrEq, hrM, hrE, hrI⟩ :=
      ihr (c1 + 1) ((keys ++ interleave (sliceL L s (Int.fdiv (s + e) 2))) ++ [""])
    have hinter : interleave (sliceL L s e)
        = interleave (sliceL L s (Int.fdiv (s + e) 2)) ++ [""]
          ++ interleave (sliceL L (Int.fdiv (s + e) 2 + 1) e) := by
      rw [sliceL_split L (Int.fdiv (s + e) 2) s e hm1 hm2]
      exact interleave_append _ _ (sliceL_ne_nil L hm1) (sliceL_ne_nil L (by omega))
    have hv2 : v = max l2.value r2.value := by
      rw [hv, ← erasePos_value l, ← erasePos_value r, ← hlE, ← hrE,
        erasePos_value, erasePos_value]
    refine ⟨.mk s e "" v sel br (some l2) (some r2) (some c1), c2, ?_, ?_, ?_, ?_⟩
    · simp only [TreeNode.inorder, hlEq, hrEq, hinter]
      simp [List.append_assoc]
    · exact Models.node s e l2 r2 v sel br (some c1) hse hlM hrM hv2
    · simp only [erasePos, hlE, hrE]
    · simp only [TreeNode.inorder, hlI, hrI, hinter]
      simp [List.append_assoc]

/-! ### Construction on invalid input -/

theorem build_empty (A : List Int) (L : List String) (si bi : Int) :
    ∀ fuel : Nat, buildTree A L si bi fuel 0 (-1) = .error .fuelOut := by
  intro fuel
  induction fuel with
  | zero => rfl
  | succ fuel ih =>
    have hmid : Int.fdiv ((0 : Int) + -1) 2 = -1 := by
      rw [fdiv_two]
      decide
    simp only [buildTree, if_neg (show ¬ (0 : Int) = -1 by omega), hmid, ih]

theorem build_short_labels {A : List Int} {L : List String} (si bi : Int) :
    ∀ (fuel : Nat) (s e : Int), 0 ≤ s → s ≤ e → e < (A.length : Int) →
    (L.length : Int) ≤ e → (e - s).toNat < fuel →
    buildTree A L si bi fuel s e = .error .indexErr := by
  intro fuel
  induction fuel with
  | zero => intro s e _ _ _ _ hf; omega
  | succ fuel ih =>
    intro s e h0 hse hA hL hf
    by_cases heq : s = e
    · have hg : pyGet L s = none := by
        rw [pyGet_nonneg _ h0]
        exact List.get?_eq_none.mpr (by omega)
      simp only [buildTree, if_pos heq, hg]
    · have hse2 : s < e := lt_of_le_of_ne hse heq
      obtain ⟨hm1, hm2⟩ := mid_bounds hse2
      by_cases hLm : (L.length : Int) ≤ Int.fdiv (s + e) 2
      · have hleft := ih s (Int.fdiv (s + e) 2) h0 hm1 (by omega) hLm (by omega)
        simp only [buildTree, if_neg heq, hleft]
      · obtain ⟨lc, hlc, _⟩ := @build_models A L si bi fuel s (Int.fdiv (s + e) 2)
          h0 hm1 (by omega) (by omega) (by omega)
        have hright := ih (Int.fdiv (s + e) 2 + 1) e (by omega) (by omega)
          hA hL (by omega)
        simp only [buildTree, if_neg heq, hlc, hright]

theorem init_ok {A : List Int} {L : List String} (si bi : Int) (hA : A ≠ [])
    (hL : (A.length : Int) - 1 < (L.length : Int)) :
    ∃ st, SegmentTree.init A L si bi = .ok st ∧
      Models A L 0 ((A.length : Int) - 1) st.root ∧
      st.values = A ∧ st.labels = L := by
  have hlen : 0 < A.length := List.length_pos.mpr hA
  obtain ⟨t, ht, htM⟩ := @build_models A L si bi A.length 0 ((A.length : Int) - 1)
    (by omega) (by omega) (by omega) hL (by omega)
  exact ⟨⟨A, L, si, bi, t⟩, by rw [SegmentTree.init, ht], htM, rfl, rfl⟩

/-! ### The slice of a whole list -/

theorem getDS_cons (a : String) (t : List String) {s : Int} (h : 0 ≤ s) :
    getDS (a :: t) (s + 1) = getDS t s := by
  rw [getDS, getDS, pyGet_nonneg _ (by omega), pyGet_nonneg _ h]
  have : (s + 1).toNat = s.toNat + 1 := by omega
  rw [this]
  rfl

theorem sliceL_shift (a : String) (t : List String) :
    ∀ (s e : Int), 0 ≤ s → sliceL (a :: t) (s + 1) (e + 1) = sliceL t s e := by
  have key : ∀ (k : Nat) (s e : Int), 0 ≤ s → (e - s).toNat ≤ k →
      sliceL (a :: t) (s + 1) (e + 1) = sliceL t s e := by
    intro k
    induction k with
    | zero =>
      intro s e h0 hk
      rcases lt_or_le e s with hlt | hle
      · rw [sliceL_nil _ (by omega), sliceL_nil _ (by omega)]
      · have he : e = s := by omega
        rw [he, sliceL_single, sliceL_single, getDS_cons a t h0]
    | succ k ih =>
      intro s e h0 hk
      rcases lt_or_le e s with hlt | hle
      · rw [sliceL_nil _ (by omega), sliceL_nil _ (by omega)]
      · rw [sliceL_cons _ (by omega : s + 1 ≤ e + 1), sliceL_cons _ hle,
          getDS_cons a t h0]
        have hstep : sliceL (a :: t) (s + 1 + 1) (e + 1) = sliceL t (s + 1) e := by
          have := ih (s + 1) e (by omega) (by omega)
          rcases lt_or_le e (s + 1) with h2 | h2
          · rw [sliceL_nil _ (by omega), sliceL_nil _ (by omega)]
          · exact this
        rw [hstep]
  intro s e h0
  exact key (e - s).toNat s e h0 le_rfl

theorem sliceL_whole : ∀ (L : List String), L ≠ [] →
    sliceL L 0 ((L.length : Int) - 1) = L := by
  intro L
  induction L with
  | nil => intro h; exact absurd rfl h
  | cons a t ih =>
    intro _
    rcases t with _ | ⟨b, t2⟩
    · rw [show ((([a] : List String).length : Int) - 1) = 0 by simp, sliceL_single]
      rfl
    · have hne : (b :: t2) ≠ [] := List.cons_ne_nil _ _
      have hlen : ((a :: b :: t2).length : Int) - 1
          = (((b :: t2).length : Int) - 1) + 1 := by
        simp only [List.length_cons]
        push_cast
        ring
      rw [hlen, sliceL_cons _ (by omega)]
      have hget : getDS (a :: b :: t2) 0 = a := rfl
      rw [hget, show (0 : Int) + 1 = 0 + 1 by rfl, sliceL_shift a (b :: t2) 0
        (((b :: t2).length : Int) - 1) le_rfl, ih hne]

/-! ### Concrete demonstration trees used by the witnesses -/

/-- The tree `build_tree` produces for `values = [1, 2]`,
`labels = ["a", "b"]`. -/
def demoTree : TreeNode :=
  .mk 0 1 "" 2 false false
    (some (.mk 0 0 "a" 1 false false none none none))
    (some (.mk 1 1 "b" 2 false false none none none)) none

/-- The `SegmentTree` object for `values = [1, 2]`, `labels = ["a", "b"]`. -/
def demoST : SegmentTree := ⟨[1, 2], ["a", "b"], -1, -1, demoTree⟩

/-- `demoTree` after `update(1, 7)`. -/
def demoTreeUpd1 : TreeNode :=
  .mk 0 1 "" 7 false false
    (some (.mk 0 0 "a" 1 false false none none none))
    (some (.mk 1 1 "b" 7 false false none none none)) none

/-- `demoTree` after `update(0, 5)`. -/
def demoTreeUpd0 : TreeNode :=
  .mk 0 1 "" 5 false false
    (some (.mk 0 0 "a" 5 false false none none none))
    (some (.mk 1 1 "b" 2 false false none none none)) none

/-! ### The claims -/

/-- C1: for every non-empty integer array `A` with a parallel label list of
equal length, constructing the tree succeeds and querying the full range
`[0, len(A)-1]` returns the maximum of `A`. -/
theorem C1_build_query_max (A : List Int) (L : List String)
    (hA : A ≠ []) (hlen : A.length = L.length) :
    ∃ st, SegmentTree.init A L (-1) (-1) = .ok st ∧
      st.query 0 ((A.length : Int) - 1) = some (listMax A) := by
  have hlen0 : 0 < A.length := List.length_pos.mpr hA
  obtain ⟨st, hst, hM, _, _⟩ := @init_ok A L (-1) (-1) hA (by omega)
  refine ⟨st, hst, ?_⟩
  show st.root.query 0 ((A.length : Int) - 1) = some (listMax A)
  rw [query_models hM 0 ((A.length : Int) - 1) le_rfl (by omega) le_rfl,
    rangeMax_eq_listMax hA]

theorem C1_build_query_max_witness :
    ∃ st, SegmentTree.init [3, 1, 2] ["a", "b", "c"] (-1) (-1) = .ok st ∧
      st.query 0 ((([3, 1, 2] : List Int).length : Int) - 1)
        = some (listMax [3, 1, 2]) :=
  C1_build_query_max [3, 1, 2] ["a", "b", "c"] (by decide) rfl

/-- C2: for a tree built from `A` and a valid index `idx`, after
`update(idx, v)` the point query at `idx` returns `v`, and every query on a
range containing `idx` returns the maximum of `A[s..e]` with `A[idx]`
replaced by `v`. -/
theorem C2_update_correct (A : List Int) (L : List String) (st : SegmentTree)
    (idx v : Int) (hA : A ≠ []) (hlen : A.length = L.length)
    (hinit : SegmentTree.init A L (-1) (-1) = .ok st)
    (h0 : 0 ≤ idx) (h1 : idx ≤ (A.length : Int) - 1) :
    ∃ st2, st.update idx v = some st2 ∧
      st2.query idx idx = some v ∧
      ∀ s e, 0 ≤ s → s ≤ idx → idx ≤ e → e ≤ (A.length : Int) - 1 →
        st2.query s e = some (rangeMax (updList A idx v) s e) := by
  have hlen0 : 0 < A.length := List.length_pos.mpr hA
  have hM := init_models hA (by omega) hinit
  obtain ⟨t2, ht2, ht2M⟩ := update_models hM idx v le_rfl h0 h1
  refine ⟨⟨st.values, st.labels, st.selected_idx, st.branch_idx, t2⟩, ?_, ?_, ?_⟩
  · simp only [SegmentTree.update, ht2]
  · show t2.query idx idx = some v
    rw [query_models ht2M idx idx h0 le_rfl h1, rangeMax_base _ le_rfl, getDD,
      pyGet_updList_eq v h0 (by omega)]
    rfl
  · intro s e hs1 hs2 hs3 hs4
    show t2.query s e = some (rangeMax (updList A idx v) s e)
    exact query_models ht2M s e hs1 (by omega) hs4

theorem C2_update_correct_witness :
    ∃ st2, demoST.update 0 5 = some st2 ∧
      st2.query 0 0 = some 5 ∧
      ∀ s e, 0 ≤ s → s ≤ 0 → 0 ≤ e → e ≤ (([1, 2] : List Int).length : Int) - 1 →
        st2.query s e = some (rangeMax (updList [1, 2] 0 5) s e) :=
  C2_update_correct [1, 2] ["a", "b"] demoST 0 5 (by decide) rfl rfl
    (by decide) (by decide)

/-- C3: every tree produced by construction satisfies the structural
invariant, and the invariant is preserved by every sequence of valid
updates: internal `value = max(left.value, right.value)`, left child covers
`[start, mid]`, right child covers `[mid+1, end]` with
`mid = (start+end)//2`, and every leaf has `start = end`. -/
theorem C3_invariant_preserved (A : List Int) (L : List String)
    (st : SegmentTree) (us : List (Int × Int)) (t2 : TreeNode)
    (hA : A ≠ []) (hlen : A.length = L.length)
    (hinit : SegmentTree.init A L (-1) (-1) = .ok st)
    (hvalid : ∀ p ∈ us, 0 ≤ p.1 ∧ p.1 ≤ (A.length : Int) - 1)
    (happ : applyUpdates st.root us = some t2) :
    invariantB t2 = true := by
  have hM := init_models hA (by omega) hinit
  obtain ⟨A2, t3, ht3, ht3M⟩ := applyUpdates_models le_rfl us A st.root hM hvalid
  rw [happ] at ht3
  injection ht3 with h3
  subst h3
  exact invariantB_of_models ht3M

theorem C3_invariant_preserved_witness : invariantB demoTreeUpd0 = true :=
  C3_invariant_preserved [1, 2] ["a", "b"] demoST [(0, 5)] demoTreeUpd0
    (by decide) rfl rfl
    (by
      intro p hp
      rw [List.mem_singleton] at hp
      subst hp
      exact ⟨le_rfl, by decide⟩)
    rfl

/-- C4: `update` changes nodes only on the root-to-leaf path it descends:
every subtree hanging off a position that does not lie on that path is
unchanged (hence keeps its `value`); and in the concrete scenario
`values = [30,100,70,40,20,90,10,50,80,60]`, after `update(5, 200)` the
query `query(6, 9)` still returns `80`. -/
theorem C4_update_frame :
    (∀ (A : List Int) (L : List String) (st : SegmentTree)
       (us : List (Int × Int)) (t2 : TreeNode) (idx v : Int) (t3 : TreeNode),
       A ≠ [] → A.length = L.length →
       SegmentTree.init A L (-1) (-1) = .ok st →
       (∀ p ∈ us, 0 ≤ p.1 ∧ p.1 ≤ (A.length : Int) - 1) →
       applyUpdates st.root us = some t2 →
       t2.update idx v = some t3 →
       ∀ p : List Bool, leads p (pathTo t2 idx) = false →
       subtreeAt t3 p = subtreeAt t2 p) ∧
    ((SegmentTree.init [30, 100, 70, 40, 20, 90, 10, 50, 80, 60]
        ["a", "b", "c", "d", "e", "f", "g", "h", "i", "j"] (-1) (-1)).toOption.bind
      (fun st => (st.update 5 200).bind (fun st2 => st2.query 6 9))
      = some 80) := by
  constructor
  · intro A L st us t2 idx v t3 hA hlen hinit hvalid happ hupd p hp
    have hlen0 : 0 < A.length := List.length_pos.mpr hA
    have hM := init_models hA (by omega) hinit
    obtain ⟨A2, t4, ht4, ht4M⟩ := applyUpdates_models le_rfl us A st.root hM hvalid
    rw [happ] at ht4
    injection ht4 with h4
    subst h4
    exact update_offPath ht4M idx v t3 hupd p hp
  · rfl

theorem C4_update_frame_witness :
    subtreeAt demoTreeUpd1 [false] = subtreeAt demoTree [false] :=
  C4_update_frame.1 [1, 2] ["a", "b"] demoST [] demoTree 1 7 demoTreeUpd1
    (by decide) rfl rfl
    (by intro p hp; exact absurd hp (List.not_mem_nil p))
    rfl rfl [false] rfl

/-- C5 counterexample: the claim says `update(-1, x)` fails with
`IndexOutOfRange` and leaves the tree unchanged; on the tree built from
`[1, 2]` the call `update(-1, 99)` instead succeeds and overwrites the
value at index `0` (observed by `query(0, 0)`). -/
theorem C5_counterexample :
    ∃ st st2, SegmentTree.init [1, 2] ["a", "b"] (-1) (-1) = .ok st ∧
      st.update (-1) 99 = some st2 ∧
      st.query 0 0 = some 1 ∧ st2.query 0 0 = some 99 :=
  ⟨demoST,
    ⟨[1, 2], ["a", "b"], -1, -1,
      .mk 0 1 "" 99 false false
        (some (.mk 0 0 "a" 99 false false none none none))
        (some (.mk 1 1 "b" 2 false false none none none)) none⟩,
    rfl, rfl, rfl, rfl⟩

/-- C5 amended: neither `SegmentTree.update` nor `SegmentTree.query`
validates its arguments.  An update with `idx < 0` silently behaves like
`update(0, v)` and one with `idx > size-1` like `update(size-1, v)` (both
mutate the tree); a query with `start > end`, or extending outside
`[0, size-1]`, crashes by calling a method on an absent child (modelled as
`none`). -/
theorem C5_no_validation (A : List Int) (L : List String) (st : SegmentTree)
    (hA : A ≠ []) (hlen : A.length = L.length)
    (hinit : SegmentTree.init A L (-1) (-1) = .ok st) :
    (∀ idx v, idx < 0 → st.update idx v = st.update 0 v) ∧
    (∀ idx v, (A.length : Int) - 1 < idx →
      st.update idx v = st.update ((A.length : Int) - 1) v) ∧
    (∀ qs qe, qe < qs → st.query qs qe = none) ∧
    (∀ qs qe, qs ≤ qe → (qs < 0 ∨ (A.length : Int) - 1 < qe) →
      st.query qs qe = none) := by
  have hlen0 : 0 < A.length := List.length_pos.mpr hA
  have hM := init_models hA (by omega) hinit
  refine ⟨?_, ?_, ?_, ?_⟩
  · intro idx v h
    simp only [SegmentTree.update, update_low hM idx v h]
  · intro idx v h
    simp only [SegmentTree.update, update_high hM idx v h]
  · intro qs qe h
    exact query_inverted hM qs qe h
  · intro qs qe h1 h2
    exact query_oob hM qs qe h1 h2

theorem C5_no_validation_witness :
    demoST.update (-1) 7 = demoST.update 0 7 ∧
    demoST.query 2 1 = none ∧ demoST.query (-1) 1 = none :=
  ⟨(C5_no_validation [1, 2] ["a", "b"] demoST (by decide) rfl rfl).1
      (-1) 7 (by decide),
    (C5_no_validation [1, 2] ["a", "b"] demoST (by decide) rfl rfl).2.2.1
      2 1 (by decide),
    (C5_no_validation [1, 2] ["a", "b"] demoST (by decide) rfl rfl).2.2.2
      (-1) 1 (by decide) (Or.inl (by decide))⟩

/-- C6 counterexample: the claim says mismatched `values`/`labels` lengths
fail with `LengthMismatch`; construction from one value and two labels
instead succeeds (the extra label is silently ignored). -/
theorem C6_counterexample :
    SegmentTree.init [1] ["a", "b"] (-1) (-1)
      = .ok ⟨[1], ["a", "b"], -1, -1,
        .mk 0 0 "a" 1 false false none none none⟩ := rfl

/-- C6 amended: construction performs no input validation.  On zero-length
input the recursion of `build_tree` over the range `[0, -1]` never
terminates (it exhausts every fuel bound, there is no `EmptyInput` error),
so `SegmentTree.init []` fails with `fuelOut`; labels shorter than values
raise an `IndexError` (not a `LengthMismatch`); labels longer than values
are accepted. -/
theorem C6_no_input_validation :
    (∀ (A : List Int) (L : List String) (si bi : Int) (fuel : Nat),
       buildTree A L si bi fuel 0 (-1) = .error .fuelOut) ∧
    (∀ L : List String, SegmentTree.init [] L (-1) (-1) = .error .fuelOut) ∧
    (∀ (A : List Int) (L : List String) (si bi : Int) (fuel : Nat),
       A ≠ [] → L.length < A.length → A.length ≤ fuel →
       buildTree A L si bi fuel 0 ((A.length : Int) - 1) = .error .indexErr) ∧
    (∀ (A : List Int) (L : List String), A ≠ [] → A.length ≤ L.length →
       ∃ st, SegmentTree.init A L (-1) (-1) = .ok st) := by
  refine ⟨fun A L si bi fuel => build_empty A L si bi fuel, fun L => rfl,
    ?_, ?_⟩
  · intro A L si bi fuel hA hshort hfuel
    have hlen0 : 0 < A.length := List.length_pos.mpr hA
    exact build_short_labels si bi fuel 0 ((A.length : Int) - 1) le_rfl
      (by omega) (by omega) (by omega) (by omega)
  · intro A L hA hle
    have hlen0 : 0 < A.length := List.length_pos.mpr hA
    obtain ⟨st, hst, _, _, _⟩ := @init_ok A L (-1) (-1) hA (by omega)
    exact ⟨st, hst⟩

theorem C6_no_input_validation_witness :
    buildTree [] [] (-1) (-1) 5 0 (-1) = .error .fuelOut ∧
    buildTree [1, 2] ["a"] (-1) (-1) 2 0 ((([1, 2] : List Int).length : Int) - 1)
      = .error .indexErr ∧
    (∃ st, SegmentTree.init [1] ["a", "b"] (-1) (-1) = .ok st) :=
  ⟨C6_no_input_validation.1 [] [] (-1) (-1) 5,
    C6_no_input_validation.2.2.1 [1, 2] ["a"] (-1) (-1) 2 (by decide)
      (by decide) (by decide),
    C6_no_input_validation.2.2.2 [1] ["a", "b"] (by decide) (by decide)⟩

/-- C7: range decomposition consistency: for a built tree and any valid
`[s, e]` within `[0, size-1]` split at `m` with `s ≤ m < e`, the query of
the whole range is the `max` of the queries of the two parts. -/
theorem C7_range_decomposition (A : List Int) (L : List String)
    (st : SegmentTree) (s m e : Int)
    (hA : A ≠ []) (hlen : A.length = L.length)
    (hinit : SegmentTree.init A L (-1) (-1) = .ok st)
    (hs : 0 ≤ s) (hm1 : s ≤ m) (hm2 : m < e)
    (he : e ≤ (A.length : Int) - 1) :
    ∃ v1 v2, st.query s m = some v1 ∧ st.query (m + 1) e = some v2 ∧
      st.query s e = some (max v1 v2) := by
  have hlen0 : 0 < A.length := List.length_pos.mpr hA
  have hM := init_models hA (by omega) hinit
  refine ⟨rangeMax A s m, rangeMax A (m + 1) e, ?_, ?_, ?_⟩
  · exact query_models hM s m hs hm1 (by omega)
  · exact query_models hM (m + 1) e (by omega) (by omega) he
  · show st.root.query s e = _
    rw [query_models hM s e hs (by omega) he, rangeMax_split A hm1 hm2]

theorem C7_range_decomposition_witness :
    ∃ v1 v2, demoST.query 0 0 = some v1 ∧ demoST.query 1 1 = some v2 ∧
      demoST.query 0 1 = some (max v1 v2) :=
  C7_range_decomposition [1, 2] ["a", "b"] demoST 0 0 1 (by decide) rfl rfl
    (by decide) (by decide) (by decide) (by decide)

/-- C8: the in-order traversal is idempotent and value-preserving: on a
built tree, a second `inorder` call with no intervening update returns the
same key list and the same annotated tree (hence identical positions), and
the traversal changes nothing but the `inorder_pos` annotations (in
particular no `value`). -/
theorem C8_inorder_idem (A : List Int) (L : List String) (st : SegmentTree)
    (hA : A ≠ []) (hlen : A.length = L.length)
    (hinit : SegmentTree.init A L (-1) (-1) = .ok st) :
    ∃ st2 ks, st.inorder = (st2, ks) ∧ st2.inorder = (st2, ks) ∧
      erasePos st2.root = erasePos st.root := by
  have hlen0 : 0 < A.length := List.length_pos.mpr hA
  have hM := init_models hA (by omega) hinit
  obtain ⟨t2, cnt, hrun, _, hE, hrun2⟩ := inorder_run hM 0 []
  refine ⟨⟨st.values, st.labels, st.selected_idx, st.branch_idx, t2⟩,
    [] ++ interleave (sliceL L 0 ((A.length : Int) - 1)), ?_, ?_, hE⟩
  · simp only [SegmentTree.inorder, hrun]
  · simp only [SegmentTree.inorder, hrun2]

theorem C8_inorder_idem_witness :
    ∃ st2 ks, demoST.inorder = (st2, ks) ∧ st2.inorder = (st2, ks) ∧
      erasePos st2.root = erasePos demoST.root :=
  C8_inorder_idem [1, 2] ["a", "b"] demoST (by decide) rfl rfl

/-- C9: all three recursive operations terminate on valid input: with any
fuel larger than the range size, `build_tree` returns a tree rather than
exhausting its fuel, and on the built tree `update` at a valid index and
`query` on a valid subrange both return results (no crash, no
divergence). -/
theorem C9_termination (A : List Int) (L : List String) (si bi s e : Int)
    (h0 : 0 ≤ s) (hse : s ≤ e) (hA : e < (A.length : Int))
    (hL : e < (L.length : Int)) :
    (∀ fuel : Nat, (e - s).toNat < fuel →
       ∃ t, buildTree A L si bi fuel s e = .ok t) ∧
    (∀ (fuel : Nat) (t : TreeNode), (e - s).toNat < fuel →
       buildTree A L si bi fuel s e = .ok t →
       (∀ idx v, s ≤ idx → idx ≤ e → ∃ t2, t.update idx v = some t2) ∧
       (∀ qs qe, s ≤ qs → qs ≤ qe → qe ≤ e →
         ∃ r, t.query qs qe = some r)) := by
  constructor
  · intro fuel hf
    obtain ⟨t, ht, _⟩ := @build_models A L si bi fuel s e h0 hse hA hL hf
    exact ⟨t, ht⟩
  · intro fuel t hf ht
    obtain ⟨t0, ht0, ht0M⟩ := @build_models A L si bi fuel s e h0 hse hA hL hf
    rw [ht] at ht0
    injection ht0 with h0eq
    constructor
    · intro idx v hi1 hi2
      obtain ⟨t2, ht2, _⟩ := update_models (h0eq ▸ ht0M) idx v h0 hi1 hi2
      exact ⟨t2, ht2⟩
    · intro qs qe hq1 hq2 hq3
      exact ⟨rangeMax A qs qe, query_models (h0eq ▸ ht0M) qs qe hq1 hq2 hq3⟩

theorem C9_termination_witness :
    (∃ t, buildTree [1, 2] ["a", "b"] (-1) (-1) 2 0 1 = .ok t) ∧
    (∃ t2, demoTree.update 0 3 = some t2) ∧
    (∃ r, demoTree.query 0 1 = some r) :=
  ⟨(C9_termination [1, 2] ["a", "b"] (-1) (-1) 0 1 (by decide) (by decide)
      (by decide) (by decide)).1 2 (by decide),
    ((C9_termination [1, 2] ["a", "b"] (-1) (-1) 0 1 (by decide) (by decide)
      (by decide) (by decide)).2 2 demoTree (by decide) (by rfl)).1 0 3
      (by decide) (by decide),
    ((C9_termination [1, 2] ["a", "b"] (-1) (-1) 0 1 (by decide) (by decide)
      (by decide) (by decide)).2 2 demoTree (by decide) (by rfl)).2 0 1
      (by decide) (by decide) (by decide)⟩

/-- C10 counterexample: the claim says the non-empty entries of the
traversal's label list are exactly the `n` input labels; with the input
labels `["", "b"]` the traversal returns `["", "", "b"]`, whose non-empty
entries are `["b"]`, not the two input labels. -/
theorem C10_counterexample :
    ∃ st, SegmentTree.init [1, 2] ["", "b"] (-1) (-1) = .ok st ∧
      (st.inorder).2 = ["", "", "b"] ∧
      (st.inorder).2.filter (fun x => x ≠ "") ≠ ["", "b"] :=
  ⟨⟨[1, 2], ["", "b"], -1, -1,
      .mk 0 1 "" 2 false false
        (some (.mk 0 0 "" 1 false false none none none))
        (some (.mk 1 1 "b" 2 false false none none none)) none⟩,
    rfl, rfl, by decide⟩

/-- C10 amended: the traversal of a tree built from `n` leaves returns
exactly `2n - 1` entries, namely the `n` input labels in increasing
leaf-index order interleaved with one empty-string entry per internal
node (so the labels sit at the even positions; the original filter
formulation holds only when no input label is itself empty). -/
theorem C10_inorder_labels (A : List Int) (L : List String) (st : SegmentTree)
    (hA : A ≠ []) (hlen : A.length = L.length)
    (hinit : SegmentTree.init A L (-1) (-1) = .ok st) :
    (st.inorder).2 = interleave L ∧
    (st.inorder).2.length = 2 * A.length - 1 := by
  have hlen0 : 0 < A.length := List.length_pos.mpr hA
  have hLne : L ≠ [] := by
    intro h
    rw [h] at hlen
    exact hA (List.length_eq_zero.mp hlen)
  have hM := init_models hA (by omega) hinit
  obtain ⟨t2, cnt, hrun, _, _, _⟩ := inorder_run hM 0 []
  have hkeys : (st.inorder).2 = interleave (sliceL L 0 ((A.length : Int) - 1)) := by
    simp only [SegmentTree.inorder, hrun]
    rw [List.nil_append]
  have hslice : sliceL L 0 ((A.length : Int) - 1) = L := by
    rw [show ((A.length : Int) - 1) = ((L.length : Int) - 1) by omega]
    exact sliceL_whole L hLne
  refine ⟨by rw [hkeys, hslice], ?_⟩
  rw [hkeys, hslice, interleave_length L hLne]
  omega

theorem C10_inorder_labels_witness :
    (demoST.inorder).2 = interleave ["a", "b"] ∧
    (demoST.inorder).2.length = 2 * ([1, 2] : List Int).length - 1 :=
  C10_inorder_labels [1, 2] ["a", "b"] demoST (by decide) rfl rfl

end SegTree
